import Mathlib

/-!
Verification of the shh-env namespace resolution and layering engine.

The definitions below are a shallow embedding of the TypeScript sources:
  src/lib/secrets.ts    (validation, namespace codec, store access)
  src/lib/enumerate.ts  (platform enumeration parsers, entry filter)
  src/commands/run.ts   (getMergedSecrets: flat override merge)
  src/commands/list.ts  (printMergedView: annotated merge and rendering)

JavaScript strings are modelled by Lean `String`; the JS string operations
used by the code (split, trim, startsWith, regex tests) are implemented
explicitly over `String.data` so that every definition is executable and
provable by ordinary list induction.  The external secret store is a
parameter `store : String → String → Option String` (service → name →
value-or-absent), matching `Bun.secrets.get`; `null` is `none`.
-/

namespace ShhEnv

/-! ## JS string primitives -/

/-- JS truthiness of an optional string: `undefined` and `""` are falsy. -/
def strTruthy : Option String → Bool
  | none => false
  | some s => !(s == "")

/-- Whitespace as removed by `String.prototype.trim` (ASCII portion). -/
def isJsWs (c : Char) : Bool :=
  c == ' ' || c == '\t' || c == '\n' || c == '\r'

/-- Model of `s.trim()`: remove leading and trailing whitespace. -/
def jsTrim (s : String) : String :=
  String.mk (((s.data.dropWhile isJsWs).reverse.dropWhile isJsWs).reverse)

/-- Model of `s.startsWith(pre)`. -/
def startsWithStr (pre s : String) : Bool :=
  pre.data.isPrefixOf s.data

/-- Model of dropping the first `n` characters of a string. -/
def dropStr (s : String) (n : Nat) : String :=
  String.mk (s.data.drop n)

/-- Worker for `String.prototype.split` with a non-empty separator
`s0 :: sep4`: scan left to right, cutting at each (non-overlapping)
occurrence of the separator.  `acc` holds the current field reversed.
The `Nat` argument is structural-recursion fuel; every step consumes at
least one character, so any fuel at least the input length gives the
scan's value, and the fuel-exhausted branch is never reached. -/
def jsSplitAux (s0 : Char) (sep4 : List Char) : Nat → List Char → List Char → List (List Char)
  | _, [], acc => [acc.reverse]
  | 0, cs, acc => [acc.reverse ++ cs]
  | f + 1, c :: cs, acc =>
    if (s0 :: sep4).isPrefixOf (c :: cs) then
      acc.reverse :: jsSplitAux s0 sep4 f (cs.drop sep4.length) []
    else
      jsSplitAux s0 sep4 f cs (c :: acc)

/-- Model of `s.split(sep)` for the non-empty separators used in the code
(`"::"`, `":"`, `"\n"`).  The empty-separator case never occurs. -/
def jsSplit (sep s : String) : List String :=
  match sep.data with
  | [] => [s]
  | c :: cs => (jsSplitAux c cs s.data.length s.data []).map String.mk

/-! ## Identifier validation (src/lib/secrets.ts) -/

/-- Character class of `SERVICE_PATTERN = /^[a-zA-Z0-9._-]+$/`. -/
def isServiceChar (c : Char) : Bool :=
  c.isAlpha || c.isDigit || c == '.' || c == '_' || c == '-'

/-- Character class of `ENV_PATTERN = /^[a-zA-Z0-9_-]+$/`. -/
def isEnvChar (c : Char) : Bool :=
  c.isAlpha || c.isDigit || c == '_' || c == '-'

/-- Uppercase ASCII letter, the leading class of `KEY_PATTERN`. -/
def isUpperChar (c : Char) : Bool :=
  'A' ≤ c && c ≤ 'Z'

/-- Character class of the tail of `KEY_PATTERN = /^[A-Z][A-Z0-9_]*$/`. -/
def isKeyChar (c : Char) : Bool :=
  isUpperChar c || c.isDigit || c == '_'

/-- `SERVICE_PATTERN.test s`: one or more characters from `[a-zA-Z0-9._-]`. -/
def servicePatternMatch (s : String) : Bool :=
  !(s == "") && s.data.all isServiceChar

/-- `ENV_PATTERN.test e`: one or more characters from `[a-zA-Z0-9_-]`. -/
def envPatternMatch (e : String) : Bool :=
  !(e == "") && e.data.all isEnvChar

/-- `KEY_PATTERN.test k`: an uppercase letter followed by `[A-Z0-9_]*`. -/
def keyPatternMatch (k : String) : Bool :=
  match k.data with
  | [] => false
  | c :: rest => isUpperChar c && rest.all isKeyChar

/-- `validateService` accepts (does not throw) iff the service is the
sentinel `"_"` or matches `SERVICE_PATTERN`. -/
def validateService (service : String) : Bool :=
  service == "_" || servicePatternMatch service

/-- `validateEnv` accepts iff the environment matches `ENV_PATTERN`. -/
def validateEnv (env : String) : Bool :=
  envPatternMatch env

/-- `validateKey` accepts iff the key matches `KEY_PATTERN`. -/
def validateKey (key : String) : Bool :=
  keyPatternMatch key

/-! ## Namespace codec (src/lib/secrets.ts) -/

/-- The errors `buildServiceName` can throw. -/
inductive CodecError where
  | invalidService (s : String)
  | invalidEnv (e : String)
  | envRequiresService
  deriving DecidableEq

/-- Model of `buildServiceName(service?, env?)`.  `service || "_"` uses JS
truthiness, so an empty-string service falls back to the sentinel;
`if (env)` likewise treats an empty-string environment as absent. -/
def buildServiceName (service env : Option String) : Except CodecError String :=
  let svc := if strTruthy service then service.getD "" else "_"
  if strTruthy env then
    if !strTruthy service then
      .error .envRequiresService
    else if !validateService (service.getD "") then
      .error (.invalidService (service.getD ""))
    else if !validateEnv (env.getD "") then
      .error (.invalidEnv (env.getD ""))
    else
      .ok (service.getD "" ++ "::" ++ env.getD "")
  else
    if !validateService svc then .error (.invalidService svc)
    else .ok svc

/-- Model of `parseServiceName`: split on `"::"`; exactly two non-empty
parts decompose as (service, env); any other arity returns the original
string as the service with no environment. -/
def parseServiceName (serviceName : String) : String × Option String :=
  match jsSplit "::" serviceName with
  | [p0, p1] =>
    if !(p0 == "") && !(p1 == "") then (p0, some p1)
    else (serviceName, none)
  | _ => (serviceName, none)

/-! ## Store access maps

`Record<string, string>` objects are modelled as association lists with
JS property-assignment semantics: assigning to an existing key updates it
in place, assigning a fresh key appends it. -/

/-- A JS object used as a string-to-string record. -/
abbrev StrMap := List (String × String)

/-- Model of `obj[key] = value`: update the (unique) existing occurrence
of the key or append a fresh binding. -/
def setKey : StrMap → String → String → StrMap
  | [], k, v => [(k, v)]
  | p :: m, k, v => if p.1 == k then (k, v) :: m else p :: setKey m k v

/-- Model of reading `obj[key]` (`undefined` is `none`): the first (and,
for maps built by `setKey`, only) binding of the key. -/
def mapLookup : StrMap → String → Option String
  | [], _ => none
  | p :: m, k => if p.1 == k then some p.2 else mapLookup m k

/-- Model of `getSecretsForService`'s loop body: one `Bun.secrets.get`
round-trip per key, skipping keys whose value is absent (`null`). -/
def getSecretsGo (store : String → String → Option String) (serviceName : String) :
    List String → StrMap → StrMap
  | [], result => result
  | key :: keys, result =>
    match store serviceName key with
    | some v => getSecretsGo store serviceName keys (setKey result key v)
    | none => getSecretsGo store serviceName keys result

/-- Model of `getSecretsForService(serviceName, keys)` with the external
store passed explicitly. -/
def getSecretsForService (store : String → String → Option String)
    (serviceName : String) (keys : List String) : StrMap :=
  getSecretsGo store serviceName keys []

/-! ## Enumeration entries and the entry filter (src/lib/enumerate.ts) -/

/-- One enumerated credential-store item. -/
structure SecretEntry where
  service : String
  key : String
  deriving DecidableEq

/-- Compiled form of the filter regex
`/^(_|[a-zA-Z0-9._-]+(::[a-zA-Z0-9_-]+)?)$/`: either the bare sentinel,
or a non-empty run of service characters optionally followed by `::` and
a non-empty run of environment characters reaching the end.  (The base
class excludes `:`, so the greedy run stops exactly at the separator and
regex backtracking can never produce another accepting split.) -/
def servicePatternTest (s : String) : Bool :=
  s == "_" ||
    (let base := s.data.takeWhile isServiceChar
     let rest := s.data.drop base.length
     !(base == []) &&
       (rest == [] ||
         match rest with
         | ':' :: ':' :: envPart => !(envPart == []) && envPart.all isEnvChar
         | _ => false))

/-- Model of `filterShhEnvEntries`: keep entries whose namespace matches
the service pattern and whose key matches the key pattern. -/
def filterShhEnvEntries (entries : List SecretEntry) : List SecretEntry :=
  entries.filter (fun e => servicePatternTest e.service && keyPatternMatch e.key)

/-! ## Grouped map access

`groupByService` produces a `Map<string, string[]>`; consumers read it
with `groups.get(layer) || []`.  Grouped maps are modelled as association
lists from namespace to key list. -/

/-- A grouped-by-namespace map. -/
abbrev Groups := List (String × List String)

/-- Model of `groups.get(layer) || []`. -/
def getGroup : Groups → String → List String
  | [], _ => []
  | p :: gs, layer => if p.1 == layer then p.2 else getGroup gs layer

/-! ## Flat merge for injection (src/commands/run.ts) -/

/-- Model of the layer-list computation in `getMergedSecrets`:
`["_"]`, plus the service when supplied, plus `service::env` when both
are supplied. -/
def resolveLayers (service env : Option String) : List String :=
  ["_"] ++
    (if strTruthy service then
      [service.getD ""] ++
        (if strTruthy env then [service.getD "" ++ "::" ++ env.getD ""] else [])
     else [])

/-- Model of `Object.assign(target, source)`: write each binding of the
source record over the target, in the source's insertion order. -/
def objAssign (target source : StrMap) : StrMap :=
  source.foldl (fun acc p => setKey acc p.1 p.2) target

/-- Model of the merge loop of `getMergedSecrets`, with the enumerated
grouped map and the external store passed explicitly: iterate the
resolved layers in order and assign each layer's fetched secrets over the
accumulated result. -/
def getMergedSecrets (store : String → String → Option String)
    (groups : Groups) (service env : Option String) : StrMap :=
  (resolveLayers service env).foldl
    (fun merged layer =>
      let keys := getGroup groups layer
      if keys.length > 0 then
        objAssign merged (getSecretsForService store layer keys)
      else merged)
    []

/-- The merge semantics stated by the specification: a key's winning
value comes from the last layer in the sequence whose group lists the key
and whose store fetch is present; layers absent from the group map
contribute nothing. -/
def flatMergeSpec (store : String → String → Option String) (groups : Groups) :
    List String → String → Option String
  | [], _ => none
  | layer :: rest, k =>
    match flatMergeSpec store groups rest k with
    | some v => some v
    | none => if (getGroup groups layer).contains k then store layer k else none

/-! ## Annotated merge for display (src/commands/list.ts) -/

/-- The layer list built by `printMergedView`: always `["_", service]`,
plus `service::env` when an environment was supplied. -/
def mergedLayers (service : String) (env : Option String) : List String :=
  ["_", service] ++
    (if strTruthy env then [service ++ "::" ++ env.getD ""] else [])

/-- Model of the `winningLayer` map: iterate layers in order and set
`winningLayer[key] = layer` for every key of the layer's group, so the
surviving binding is the last layer listing the key. -/
def winningLayerMap (groups : Groups) (layers : List String) : StrMap :=
  layers.foldl
    (fun m layer => (getGroup groups layer).foldl (fun m k => setKey m k layer) m)
    []

/-- Model of the `overriddenKeys` set: for every layer except the last,
record `layer ++ ":" ++ key` for each of its keys whose winning layer is
different.  The source uses a JS `Set`; only membership is ever consumed,
so a list (with possible duplicates) is an equivalent model. -/
def overriddenMarks (groups : Groups) (layers : List String) : List String :=
  layers.dropLast.foldl
    (fun marks layer =>
      (getGroup groups layer).foldl
        (fun marks k =>
          if !(mapLookup (winningLayerMap groups layers) k == some layer) then
            marks ++ [layer ++ ":" ++ k]
          else marks)
        marks)
    []

/-- The shadow semantics stated by the specification: the last layer in
the resolved sequence whose group lists the key (the occurrence that
stays visible); every other occurrence is shadowed. -/
def lastDefiningLayer (groups : Groups) : List String → String → Option String
  | [], _ => none
  | layer :: rest, k =>
    match lastDefiningLayer groups rest k with
    | some l => some l
    | none => if (getGroup groups layer).contains k then some layer else none

/-! ## Tree rendering (src/commands/list.ts) -/

/-- ANSI strikethrough start (`\x1b[9m`). -/
def strikeStart : String := "\x1b[9m"

/-- ANSI strikethrough end (`\x1b[0m`). -/
def strikeEnd : String := "\x1b[0m"

/-- Model of `printTree`: each key as one branch line, `├── ` for all but
the last and `└── ` for the last. -/
def printTree : List String → List String
  | [] => []
  | [k] => ["└── " ++ k]
  | k :: rest => ("├── " ++ k) :: printTree rest

/-- Model of `printTreeWithOverrides`: like `printTree` but keys whose
`layer ++ ":" ++ key` mark is in the overridden set are wrapped in the
strikethrough control sequences. -/
def printTreeWithOverrides (keys : List String) (layer : String)
    (marks : List String) : List String :=
  match keys with
  | [] => []
  | [k] =>
    if marks.contains (layer ++ ":" ++ k) then
      ["└── " ++ strikeStart ++ k ++ strikeEnd]
    else ["└── " ++ k]
  | k :: rest =>
    (if marks.contains (layer ++ ":" ++ k) then
      "├── " ++ strikeStart ++ k ++ strikeEnd
     else "├── " ++ k) :: printTreeWithOverrides rest layer marks

/-- Model of `printMergedView` as the list of printed lines
(`console.log()` with no argument prints an empty line).  The blank
separator is printed for every index `i > 0` before the empty-layer skip
check, exactly as in the source. -/
def printMergedView (groups : Groups) (service : String) (env : Option String) :
    List String :=
  let layers := mergedLayers service env
  let marks := overriddenMarks groups layers
  layers.enum.flatMap
    (fun p =>
      let keys := getGroup groups p.2
      (if p.1 > 0 then [""] else []) ++
        (if keys.length == 0 && !(p.2 == "_") then []
         else
           [p.2] ++
             (if keys.length == 0 then []
              else printTreeWithOverrides keys p.2 marks)))

/-! ## Platform enumeration parsers (src/lib/enumerate.ts)

Each parser consumes the raw stdout text of a platform-native listing
command.  The command invocation itself is external; its outcome is
modelled as `Except Unit String` — `.error` is the `catch` path (command
missing or failing), which degrades to an empty entry list. -/

/-- Leftmost search for the regex `/"TAG"<blob>="([^"]+)"/` given the
literal part `pat` (for example `"svce"<blob>="`): at each position, a
match needs the literal, then one-or-more non-quote characters, then a
closing quote; on failure the scan advances one character. -/
def blobScan (pat : List Char) : List Char → Option String
  | [] => none
  | c :: cs =>
    if pat.isPrefixOf (c :: cs) then
      let rest := (c :: cs).drop pat.length
      let content := rest.takeWhile (fun d => !(d == '"'))
      if !(content == []) && (rest.drop content.length).head? == some '"' then
        some (String.mk content)
      else blobScan pat cs
    else blobScan pat cs

/-- Scan state of the macOS `security dump-keychain` parser. -/
structure MacState where
  entries : List SecretEntry
  cls : String
  svc : String
  acct : String
  deriving DecidableEq

/-- Flush condition used both at record boundaries and at end-of-stream:
emit the pending candidate when the record class is `"genp"` (with the
quotes, as dumped) and both fields were observed. -/
def macFlush (st : MacState) : List SecretEntry :=
  if st.cls == "\"genp\"" && !(st.svc == "") && !(st.acct == "") then
    st.entries ++ [⟨st.svc, st.acct⟩]
  else st.entries

/-- One line of the macOS scan: a `class:` line flushes the pending
candidate and resets the record; `"svce"` and `"acct"` lines update the
candidate fields when their extraction regex matches. -/
def macStep (st : MacState) (line : String) : MacState :=
  let trimmed := jsTrim line
  if startsWithStr "class:" trimmed then
    { entries := macFlush st
      cls := jsTrim ((jsSplit ":" trimmed).getD 1 "")
      svc := ""
      acct := "" }
  else if startsWithStr "\"svce\"" trimmed then
    match blobScan ("\"svce\"<blob>=\"".data) trimmed.data with
    | some m => { st with svc := m }
    | none => st
  else if startsWithStr "\"acct\"" trimmed then
    match blobScan ("\"acct\"<blob>=\"".data) trimmed.data with
    | some m => { st with acct := m }
    | none => st
  else st

/-- The macOS scan over all lines, starting from the empty state. -/
def macScanState (lines : List String) : MacState :=
  lines.foldl macStep ⟨[], "", "", ""⟩

/-- The macOS parser over the split lines: scan, then flush the pending
candidate once more at end-of-stream. -/
def parseMacOSLines (lines : List String) : List SecretEntry :=
  macFlush (macScanState lines)

/-- Model of `enumerateMacOS`: a failing command yields an empty list. -/
def enumerateMacOS (output : Except Unit String) : List SecretEntry :=
  match output with
  | .error _ => []
  | .ok text => parseMacOSLines (jsSplit "\n" text)

/-- Scan state of the Linux `secret-tool search` parser. -/
structure LinuxState where
  entries : List SecretEntry
  svc : String
  acct : String
  deriving DecidableEq

/-- Linux flush condition: both fields observed. -/
def linuxFlush (st : LinuxState) : List SecretEntry :=
  if !(st.svc == "") && !(st.acct == "") then
    st.entries ++ [⟨st.svc, st.acct⟩]
  else st.entries

/-- One line of the Linux scan: a bracketed header flushes and resets;
attribute lines set the candidate fields.  `trimmed.replace(pre, "")`
under the `startsWith pre` guard equals dropping the prefix. -/
def linuxStep (st : LinuxState) (line : String) : LinuxState :=
  let trimmed := jsTrim line
  if startsWithStr "[" trimmed then
    { entries := linuxFlush st, svc := "", acct := "" }
  else if startsWithStr "attribute.service = " trimmed then
    { st with svc := dropStr trimmed ("attribute.service = ".data.length) }
  else if startsWithStr "attribute.account = " trimmed then
    { st with acct := dropStr trimmed ("attribute.account = ".data.length) }
  else st

/-- The Linux scan over all lines, starting from the empty state. -/
def linuxScanState (lines : List String) : LinuxState :=
  lines.foldl linuxStep ⟨[], "", ""⟩

/-- The Linux parser: scan, then flush once more at end-of-stream. -/
def parseLinuxLines (lines : List String) : List SecretEntry :=
  linuxFlush (linuxScanState lines)

/-- Model of `enumerateLinux`. -/
def enumerateLinux (output : Except Unit String) : List SecretEntry :=
  match output with
  | .error _ => []
  | .ok text => parseLinuxLines (jsSplit "\n" text)

/-- Case-insensitive literal prefix test, modelling the `/i` flag over
the ASCII literals of the Windows regex. -/
def ciStarts : List Char → List Char → Bool
  | [], _ => true
  | _ :: _, [] => false
  | p :: ps, c :: cs => p.toLower == c.toLower && ciStarts ps cs

/-- The tail of the Windows regex after the optional literal:
`([^/]+)\/(.+)` — a non-empty greedy run of non-slash characters, a
slash, and a non-empty remainder. -/
def winTry (tail : List Char) : Option (String × String) :=
  let c1 := tail.takeWhile (fun d => !(d == '/'))
  if !(c1 == []) then
    match tail.drop c1.length with
    | '/' :: rest => if !(rest == []) then some (String.mk c1, String.mk rest) else none
    | _ => none
  else none

/-- After the whitespace: try the optional `(?:LegacyGeneric:target=)?`
greedily (present first, then absent). -/
def winAfterWs (tail : List Char) : Option (String × String) :=
  if ciStarts ("legacygeneric:target=".data) tail then
    match winTry (tail.drop ("legacygeneric:target=".data.length)) with
    | some r => some r
    | none => winTry tail
  else winTry tail

/-- Backtracking of the greedy `\s*`: try the longest whitespace run
first, then shorter runs down to zero. -/
def winWsTrials : Nat → List Char → Option (String × String)
  | 0, tail => winAfterWs tail
  | k + 1, tail =>
    match winAfterWs (tail.drop (k + 1)) with
    | some r => some r
    | none => winWsTrials k tail

/-- Attempt of the Windows regex
`/Target:\s*(?:LegacyGeneric:target=)?([^/]+)\/(.+)/i` anchored at the
current position. -/
def winMatchAt (cs : List Char) : Option (String × String) :=
  if ciStarts ("target:".data) cs then
    let tail := cs.drop ("target:".data.length)
    winWsTrials (tail.takeWhile Char.isWhitespace).length tail
  else none

/-- Leftmost-match scan of the Windows regex over a line. -/
def winScan : List Char → Option (String × String)
  | [] => none
  | c :: cs =>
    match winMatchAt (c :: cs) with
    | some r => some r
    | none => winScan cs

/-- One line of the Windows parser: a trimmed line starting with
`Target:` is matched against the regex; a match emits an entry at once
(records are single lines, there is no pending candidate). -/
def winLineEntry (line : String) : Option SecretEntry :=
  let trimmed := jsTrim line
  if startsWithStr "Target:" trimmed then
    match winScan trimmed.data with
    | some r => some ⟨r.1, r.2⟩
    | none => none
  else none

/-- The Windows parser over the split lines. -/
def parseWindowsLines (lines : List String) : List SecretEntry :=
  lines.foldl
    (fun entries line =>
      match winLineEntry line with
      | some e => entries ++ [e]
      | none => entries)
    []

/-- Model of `enumerateWindows`. -/
def enumerateWindows (output : Except Unit String) : List SecretEntry :=
  match output with
  | .error _ => []
  | .ok text => parseWindowsLines (jsSplit "\n" text)

/-! ## Concrete example inputs used by witnesses and counterexamples -/

/-- Store for the specification's layering example: `_`, `app` and
`app::dev` each define `X`, with values 1, 2, 3. -/
def exampleStore : String → String → Option String := fun layer k =>
  if layer == "_" && k == "X" then some "1"
  else if layer == "app" && k == "X" then some "2"
  else if layer == "app::dev" && k == "X" then some "3"
  else none

/-- Grouped map for the layering example. -/
def exampleGroups : Groups := [("_", ["X"]), ("app", ["X"]), ("app::dev", ["X"])]

/-- Store in which only the root layer has a value for `X`; the `app`
layer lists the key but the fetch returns absent. -/
def absentStore : String → String → Option String := fun layer k =>
  if layer == "_" && k == "X" then some "1" else none

/-- Grouped map in which both `_` and `app` list the key `X`. -/
def absentGroups : Groups := [("_", ["X"]), ("app", ["X"])]

/-! ## Amended rendering description (spec side)

`printMergedView` prints the blank separator before the empty-layer skip
check, so an omitted layer still contributes a blank line.  The
following two definitions state that amended per-layer description; the
refinement theorem below proves the renderer equal to it. -/

/-- One layer's block in the amended description: an absent non-root
layer prints nothing; otherwise the header line followed by the branch
lines (none when the group is empty). -/
def layerBlockAmended (groups : Groups) (marks : List String)
    (layer : String) : List String :=
  let keys := getGroup groups layer
  if keys.length == 0 && !(layer == "_") then []
  else
    [layer] ++
      (if keys.length == 0 then [] else printTreeWithOverrides keys layer marks)

/-- The amended rendering: the first layer's block, then for every later
layer exactly one blank line followed by that layer's (possibly empty)
block — an omitted layer still leaves its separating blank line. -/
def mergedViewAmendedSpec (groups : Groups) (service : String)
    (env : Option String) : List String :=
  let layers := mergedLayers service env
  let marks := overriddenMarks groups layers
  match layers with
  | [] => []
  | first :: rest =>
    layerBlockAmended groups marks first ++
      rest.flatMap (fun layer => "" :: layerBlockAmended groups marks layer)

/-! ## Association-map lemmas -/

/-- The key list of a record. -/
def keysOf (m : StrMap) : List String := m.map (fun p => p.1)

theorem mapLookup_setKey (m : StrMap) (k v k2 : String) :
    mapLookup (setKey m k v) k2 = if k2 = k then some v else mapLookup m k2 := by
  induction m with
  | nil =>
    by_cases h : k2 = k
    · subst h; simp [setKey, mapLookup]
    · have h2 : ¬k = k2 := fun hh => h hh.symm
      simp [setKey, mapLookup, h, h2]
  | cons p m ih =>
    obtain ⟨pk, pv⟩ := p
    by_cases hp : pk = k
    · subst hp
      simp only [setKey, beq_self_eq_true, if_true]
      by_cases h : k2 = pk
      · subst h; simp [mapLookup]
      · have h2 : ¬pk = k2 := fun hh => h hh.symm
        simp [mapLookup, h, h2]
    · simp only [setKey]
      rw [if_neg (by simpa using hp)]
      by_cases h2 : pk = k2
      · subst h2
        simp [mapLookup, hp]
      · simp [mapLookup, h2, ih]

theorem mem_keysOf_setKey (m : StrMap) (k v a : String) :
    a ∈ keysOf (setKey m k v) ↔ a ∈ keysOf m ∨ a = k := by
  induction m with
  | nil => simp [setKey, keysOf]
  | cons p m ih =>
    obtain ⟨pk, pv⟩ := p
    by_cases hp : pk = k
    · subst hp
      simp only [setKey, beq_self_eq_true, if_true]
      simp [keysOf]
      tauto
    · simp only [setKey]
      rw [if_neg (by simpa using hp)]
      simp only [keysOf, List.map_cons, List.mem_cons] at ih ⊢
      rw [show (List.map (fun p => p.1) (setKey m k v)) = keysOf (setKey m k v) from rfl] at *
      rw [show (List.map (fun p => p.1) m) = keysOf m from rfl] at *
      rw [ih]
      tauto

theorem nodup_setKey (m : StrMap) (k v : String) (h : (keysOf m).Nodup) :
    (keysOf (setKey m k v)).Nodup := by
  induction m with
  | nil => simp [setKey, keysOf]
  | cons p m ih =>
    obtain ⟨pk, pv⟩ := p
    simp only [keysOf, List.map_cons, List.nodup_cons] at h
    by_cases hp : pk = k
    · subst hp
      simp only [setKey, beq_self_eq_true, if_true]
      simp only [keysOf, List.map_cons, List.nodup_cons]
      exact h
    · simp only [setKey]
      rw [if_neg (by simpa using hp)]
      simp only [keysOf, List.map_cons, List.nodup_cons]
      refine ⟨?_, ih h.2⟩
      intro hmem
      rcases (mem_keysOf_setKey m k v pk).mp hmem with h2 | h2
      · exact h.1 h2
      · exact hp h2

theorem mapLookup_none_of_not_mem (m : StrMap) (k : String) (h : k ∉ keysOf m) :
    mapLookup m k = none := by
  induction m with
  | nil => rfl
  | cons p m ih =>
    obtain ⟨pk, pv⟩ := p
    simp only [keysOf, List.map_cons, List.mem_cons] at h
    push_neg at h
    simp only [mapLookup]
    rw [if_neg (by simpa using fun hh => h.1 (by rw [hh]))]
    apply ih
    simpa [keysOf] using h.2

theorem mapLookup_some_mem (m : StrMap) (k v : String)
    (h : mapLookup m k = some v) : k ∈ keysOf m := by
  by_contra hk
  rw [mapLookup_none_of_not_mem m k hk] at h
  exact Option.noConfusion h

theorem objAssign_lookup (src m : StrMap) (k : String)
    (h : (keysOf src).Nodup) :
    mapLookup (objAssign m src) k =
      match mapLookup src k with
      | some v => some v
      | none => mapLookup m k := by
  induction src generalizing m with
  | nil => simp [objAssign, mapLookup]
  | cons p src ih =>
    obtain ⟨pk, pv⟩ := p
    simp only [keysOf, List.map_cons, List.nodup_cons] at h
    have step : objAssign m ((pk, pv) :: src) = objAssign (setKey m pk pv) src := rfl
    rw [step, ih _ (by simpa [keysOf] using h.2)]
    by_cases hk : pk = k
    · subst hk
      have hnone : mapLookup src pk = none :=
        mapLookup_none_of_not_mem _ _ (by simpa [keysOf] using h.1)
      simp [mapLookup, hnone, mapLookup_setKey]
    · cases hsrc : mapLookup src k with
      | some v =>
        simp [mapLookup, hsrc, hk]
      | none =>
        simp [mapLookup, hsrc, mapLookup_setKey, hk, Ne.symm hk]

/-! ## Store-fetch and flat-merge lemmas -/

theorem keysOf_getSecretsGo (store : String → String → Option String)
    (svc : String) (keys : List String) (m : StrMap) (h : (keysOf m).Nodup) :
    (keysOf (getSecretsGo store svc keys m)).Nodup := by
  induction keys generalizing m with
  | nil => exact h
  | cons key keys ih =>
    simp only [getSecretsGo]
    cases store svc key with
    | some v => exact ih _ (nodup_setKey m key v h)
    | none => exact ih _ h

theorem getSecretsGo_lookup (store : String → String → Option String)
    (svc : String) (keys : List String) (m : StrMap) (k : String) :
    mapLookup (getSecretsGo store svc keys m) k =
      if k ∈ keys ∧ (store svc k).isSome then store svc k else mapLookup m k := by
  induction keys generalizing m with
  | nil => simp [getSecretsGo]
  | cons key keys ih =>
    simp only [getSecretsGo]
    cases hsv : store svc key with
    | some v =>
      rw [ih]
      by_cases hk : k = key
      · subst hk
        simp [hsv, mapLookup_setKey]
      · simp [List.mem_cons, hk, mapLookup_setKey]
    | none =>
      rw [ih]
      by_cases hk : k = key
      · subst hk
        simp [hsv]
      · simp [List.mem_cons, hk]

theorem getSecretsForService_lookup (store : String → String → Option String)
    (svc : String) (keys : List String) (k : String) :
    mapLookup (getSecretsForService store svc keys) k =
      if k ∈ keys then store svc k else none := by
  rw [getSecretsForService, getSecretsGo_lookup]
  by_cases hmem : k ∈ keys
  · by_cases hs : (store svc k).isSome
    · simp [hmem, hs]
    · rw [Option.not_isSome_iff_eq_none] at hs
      simp [hmem, hs, mapLookup]
  · simp [hmem, mapLookup]

theorem keysOf_getSecretsForService (store : String → String → Option String)
    (svc : String) (keys : List String) :
    (keysOf (getSecretsForService store svc keys)).Nodup :=
  keysOf_getSecretsGo store svc keys [] (by simp [keysOf])

theorem mergeStep_lookup (store : String → String → Option String)
    (groups : Groups) (layer : String) (m : StrMap) (k : String) :
    mapLookup
      (if (getGroup groups layer).length > 0
        then objAssign m (getSecretsForService store layer (getGroup groups layer))
        else m) k =
      if (getGroup groups layer).contains k ∧ (store layer k).isSome
        then store layer k else mapLookup m k := by
  by_cases hlen : (getGroup groups layer).length > 0
  · rw [if_pos hlen,
      objAssign_lookup _ _ _ (keysOf_getSecretsForService store layer _),
      getSecretsForService_lookup]
    by_cases hmem : k ∈ getGroup groups layer
    · cases hs : store layer k with
      | some v => simp [hmem, hs]
      | none => simp [hmem, hs]
    · simp [hmem]
  · rw [if_neg hlen]
    have hnil : getGroup groups layer = [] := by
      cases hg : getGroup groups layer with
      | nil => rfl
      | cons a l => rw [hg] at hlen; simp at hlen
    simp [hnil]

theorem getMergedSecrets_go (store : String → String → Option String)
    (groups : Groups) (layers : List String) :
    ∀ (m : StrMap) (k : String),
      mapLookup
        (layers.foldl
          (fun merged layer =>
            let keys := getGroup groups layer
            if keys.length > 0 then
              objAssign merged (getSecretsForService store layer keys)
            else merged)
          m) k =
        match flatMergeSpec store groups layers k with
        | some v => some v
        | none => mapLookup m k := by
  induction layers with
  | nil => intro m k; simp [flatMergeSpec]
  | cons layer rest ih =>
    intro m k
    simp only [List.foldl_cons]
    rw [ih]
    have hstep := mergeStep_lookup store groups layer m k
    simp only [flatMergeSpec]
    cases hrest : flatMergeSpec store groups rest k with
    | some v => simp
    | none =>
      simp only []
      rw [hstep]
      by_cases hm : k ∈ getGroup groups layer
      · cases hs : store layer k with
        | some v => simp [hm, hs]
        | none => simp [hm, hs]
      · simp [hm]

theorem getMergedSecrets_lookup (store : String → String → Option String)
    (groups : Groups) (service env : Option String) (k : String) :
    mapLookup (getMergedSecrets store groups service env) k =
      flatMergeSpec store groups (resolveLayers service env) k := by
  rw [getMergedSecrets, getMergedSecrets_go]
  cases flatMergeSpec store groups (resolveLayers service env) k with
  | some v => rfl
  | none => rfl

/-! ## Annotated-merge lemmas -/

theorem foldl_setKeyLayer_lookup (layer : String) (keys : List String)
    (m : StrMap) (k : String) :
    mapLookup (keys.foldl (fun m k => setKey m k layer) m) k =
      if k ∈ keys then some layer else mapLookup m k := by
  induction keys generalizing m with
  | nil => simp
  | cons key keys ih =>
    simp only [List.foldl_cons]
    rw [ih]
    by_cases hk : k = key
    · subst hk
      by_cases hm : k ∈ keys <;> simp [hm, mapLookup_setKey]
    · simp [mapLookup_setKey, hk, List.mem_cons]

theorem winningGo_lookup (groups : Groups) (layers : List String) :
    ∀ (m : StrMap) (k : String),
      mapLookup
        (layers.foldl
          (fun m layer => (getGroup groups layer).foldl (fun m k => setKey m k layer) m)
          m) k =
        match lastDefiningLayer groups layers k with
        | some l => some l
        | none => mapLookup m k := by
  induction layers with
  | nil => intro m k; simp [lastDefiningLayer]
  | cons layer rest ih =>
    intro m k
    simp only [List.foldl_cons]
    rw [ih]
    simp only [lastDefiningLayer]
    cases hrest : lastDefiningLayer groups rest k with
    | some l => simp
    | none =>
      simp only []
      rw [foldl_setKeyLayer_lookup]
      by_cases hm : k ∈ getGroup groups layer <;> simp [hm]

theorem winningLayerMap_lookup (groups : Groups) (layers : List String) (k : String) :
    mapLookup (winningLayerMap groups layers) k = lastDefiningLayer groups layers k := by
  rw [winningLayerMap, winningGo_lookup]
  cases lastDefiningLayer groups layers k with
  | some l => rfl
  | none => rfl

theorem marksInner_mem (groups : Groups) (layers : List String) (layer : String)
    (keys : List String) (marks : List String) (s : String) :
    s ∈ keys.foldl
        (fun marks k =>
          if !(mapLookup (winningLayerMap groups layers) k == some layer) then
            marks ++ [layer ++ ":" ++ k]
          else marks)
        marks ↔
      s ∈ marks ∨ ∃ k, k ∈ keys ∧
        ¬(mapLookup (winningLayerMap groups layers) k = some layer) ∧
        s = layer ++ ":" ++ k := by
  induction keys generalizing marks with
  | nil => simp
  | cons key keys ih =>
    simp only [List.foldl_cons]
    rw [ih]
    by_cases hc : mapLookup (winningLayerMap groups layers) key = some layer
    · simp only [hc, beq_self_eq_true, Bool.not_true, Bool.false_eq_true, if_false]
      constructor
      · rintro (h | ⟨k, hk, hcond, hs⟩)
        · exact Or.inl h
        · exact Or.inr ⟨k, List.mem_cons_of_mem _ hk, hcond, hs⟩
      · rintro (h | ⟨k, hk, hcond, hs⟩)
        · exact Or.inl h
        · rcases List.mem_cons.mp hk with rfl | hk2
          · exact absurd hc hcond
          · exact Or.inr ⟨k, hk2, hcond, hs⟩
    · rw [if_pos (by simpa using hc)]
      constructor
      · rintro (h | ⟨k, hk, hcond, hs⟩)
        · rcases List.mem_append.mp h with h2 | h2
          · exact Or.inl h2
          · rcases List.mem_singleton.mp h2 with rfl
            exact Or.inr ⟨key, List.mem_cons_self _ _, hc, rfl⟩
        · exact Or.inr ⟨k, List.mem_cons_of_mem _ hk, hcond, hs⟩
      · rintro (h | ⟨k, hk, hcond, hs⟩)
        · exact Or.inl (List.mem_append.mpr (Or.inl h))
        · rcases List.mem_cons.mp hk with rfl | hk2
          · exact Or.inl (List.mem_append.mpr (Or.inr (by simp [hs])))
          · exact Or.inr ⟨k, hk2, hcond, hs⟩

theorem marksOuter_mem (groups : Groups) (layers : List String)
    (ls : List String) (marks : List String) (s : String) :
    s ∈ ls.foldl
        (fun marks layer =>
          (getGroup groups layer).foldl
            (fun marks k =>
              if !(mapLookup (winningLayerMap groups layers) k == some layer) then
                marks ++ [layer ++ ":" ++ k]
              else marks)
            marks)
        marks ↔
      s ∈ marks ∨ ∃ L k, L ∈ ls ∧ k ∈ getGroup groups L ∧
        ¬(mapLookup (winningLayerMap groups layers) k = some L) ∧
        s = L ++ ":" ++ k := by
  induction ls generalizing marks with
  | nil => simp
  | cons layer ls ih =>
    simp only [List.foldl_cons]
    rw [ih, marksInner_mem]
    constructor
    · rintro ((h | ⟨k, hk, hcond, hs⟩) | ⟨L, k, hL, hk, hcond, hs⟩)
      · exact Or.inl h
      · exact Or.inr ⟨layer, k, List.mem_cons_self _ _, hk, hcond, hs⟩
      · exact Or.inr ⟨L, k, List.mem_cons_of_mem _ hL, hk, hcond, hs⟩
    · rintro (h | ⟨L, k, hL, hk, hcond, hs⟩)
      · exact Or.inl (Or.inl h)
      · rcases List.mem_cons.mp hL with rfl | hL2
        · exact Or.inl (Or.inr ⟨k, hk, hcond, hs⟩)
        · exact Or.inr ⟨L, k, hL2, hk, hcond, hs⟩

theorem overriddenMarks_mem (groups : Groups) (layers : List String) (s : String) :
    s ∈ overriddenMarks groups layers ↔
      ∃ L k, L ∈ layers.dropLast ∧ k ∈ getGroup groups L ∧
        ¬(lastDefiningLayer groups layers k = some L) ∧
        s = L ++ ":" ++ k := by
  rw [overriddenMarks, marksOuter_mem]
  simp only [List.not_mem_nil, false_or]
  constructor
  · rintro ⟨L, k, hL, hk, hcond, hs⟩
    rw [winningLayerMap_lookup] at hcond
    exact ⟨L, k, hL, hk, hcond, hs⟩
  · rintro ⟨L, k, hL, hk, hcond, hs⟩
    rw [← winningLayerMap_lookup groups layers k] at hcond
    exact ⟨L, k, hL, hk, hcond, hs⟩

theorem getGroup_subset (groups : Groups) (L : String) :
    ∀ k ∈ getGroup groups L, ∃ p ∈ groups, k ∈ p.2 := by
  induction groups with
  | nil => intro k hk; cases hk
  | cons p gs ih =>
    intro k hk
    simp only [getGroup] at hk
    by_cases hp : p.1 = L
    · rw [if_pos (by simpa using hp)] at hk
      exact ⟨p, List.mem_cons_self _ _, hk⟩
    · rw [if_neg (by simpa using hp)] at hk
      rcases ih k hk with ⟨q, hq, hkq⟩
      exact ⟨q, List.mem_cons_of_mem _ hq, hkq⟩

theorem lastDefiningLayer_isSome (groups : Groups) (layers : List String)
    (L k : String) (hL : L ∈ layers) (hk : k ∈ getGroup groups L) :
    (lastDefiningLayer groups layers k).isSome := by
  induction layers with
  | nil => cases hL
  | cons l rest ih =>
    simp only [lastDefiningLayer]
    cases hrest : lastDefiningLayer groups rest k with
    | some x => simp
    | none =>
      rcases List.mem_cons.mp hL with rfl | hL2
      · simp [hk]
      · have := ih hL2
        rw [hrest] at this
        simp at this

theorem mem_dropLast_of_shadowed (groups : Groups) (layers : List String)
    (L k : String) (hL : L ∈ layers) (hk : k ∈ getGroup groups L)
    (hne : lastDefiningLayer groups layers k ≠ some L) :
    L ∈ layers.dropLast := by
  induction layers with
  | nil => cases hL
  | cons l rest ih =>
    cases rest with
    | nil =>
      rcases List.mem_singleton.mp hL with rfl
      exact absurd (by simp [lastDefiningLayer, hk]) hne
    | cons r rest2 =>
      rcases List.mem_cons.mp hL with rfl | hL2
      · rw [List.dropLast_cons₂]
        exact List.mem_cons_self _ _
      · have hrec : lastDefiningLayer groups (r :: rest2) k ≠ some L := by
          intro heq
          apply hne
          simp only [lastDefiningLayer] at heq ⊢
          rw [heq]
        rw [List.dropLast_cons₂]
        exact List.mem_cons_of_mem _ (ih hL2 hrec)

/-! ## Injectivity of the `layer ++ ":" ++ key` mark encoding

The renderer records overridden occurrences as the single string
`layer + ":" + key`; the encoding is injective as long as keys contain
no colon, which the key grammar guarantees. -/

theorem colon_append_inj (a1 : List Char) :
    ∀ (a2 b1 b2 : List Char), (∀ c ∈ b1, c ≠ ':') → (∀ c ∈ b2, c ≠ ':') →
      a1 ++ ':' :: b1 = a2 ++ ':' :: b2 → a1 = a2 ∧ b1 = b2 := by
  induction a1 with
  | nil =>
    intro a2 b1 b2 h1 h2 h
    cases a2 with
    | nil => simpa using h
    | cons c a2 =>
      exfalso
      simp only [List.nil_append, List.cons_append, List.cons.injEq] at h
      exact h1 ':' (by rw [h.2]; simp) rfl
  | cons c a1 ih =>
    intro a2 b1 b2 h1 h2 h
    cases a2 with
    | nil =>
      exfalso
      simp only [List.nil_append, List.cons_append, List.cons.injEq] at h
      exact h2 ':' (by rw [← h.2]; simp) rfl
    | cons d a2 =>
      simp only [List.cons_append, List.cons.injEq] at h
      have := ih a2 b1 b2 h1 h2 h.2
      exact ⟨by rw [List.cons.injEq]; exact ⟨h.1, this.1⟩, this.2⟩

theorem markEncode_inj (l1 k1 l2 k2 : String)
    (h1 : ∀ c ∈ k1.data, c ≠ ':') (h2 : ∀ c ∈ k2.data, c ≠ ':')
    (h : l1 ++ ":" ++ k1 = l2 ++ ":" ++ k2) : l1 = l2 ∧ k1 = k2 := by
  have hd : l1.data ++ ':' :: k1.data = l2.data ++ ':' :: k2.data := by
    have h3 := congrArg String.data h
    simpa [String.data_append] using h3
  have := colon_append_inj l1.data l2.data k1.data k2.data h1 h2 hd
  exact ⟨String.ext this.1, String.ext this.2⟩

theorem keyPattern_no_colon (k : String) (h : keyPatternMatch k = true) :
    ∀ c ∈ k.data, c ≠ ':' := by
  intro c hc
  rw [keyPatternMatch] at h
  cases hk : k.data with
  | nil => rw [hk] at h; exact absurd h (by simp)
  | cons c0 rest =>
    rw [hk] at h hc
    simp only [Bool.and_eq_true, List.all_eq_true] at h
    rcases List.mem_cons.mp hc with rfl | hcr
    · intro hceq
      subst hceq
      exact absurd h.1 (by decide)
    · intro hceq
      subst hceq
      exact absurd (h.2 ':' hcr) (by decide)

/-! ## Split and round-trip lemmas -/

theorem jsSplitAux_noSep (cs : List Char) :
    ∀ (f : Nat) (acc : List Char), cs.length ≤ f → (∀ c ∈ cs, c ≠ ':') →
      jsSplitAux ':' [':'] f cs acc = [acc.reverse ++ cs] := by
  induction cs with
  | nil =>
    intro f acc _ _
    cases f <;> simp [jsSplitAux]
  | cons c cs ih =>
    intro f acc hf hc
    cases f with
    | zero => simp at hf
    | succ f =>
      have hcc : c ≠ ':' := hc c (List.mem_cons_self _ _)
      have hpre : ([':', ':'] : List Char).isPrefixOf (c :: cs) = false := by
        simp [List.isPrefixOf]
        intro h
        exact absurd h.symm hcc
      simp only [jsSplitAux, hpre, Bool.false_eq_true, if_false]
      rw [ih f (c :: acc) (by simpa using Nat.le_of_succ_le_succ hf)
        (fun d hd => hc d (List.mem_cons_of_mem _ hd))]
      simp

theorem jsSplitAux_two (s : List Char) :
    ∀ (f : Nat) (acc e : List Char),
      s.length + 2 + e.length ≤ f →
      (∀ c ∈ s, c ≠ ':') → (∀ c ∈ e, c ≠ ':') →
      jsSplitAux ':' [':'] f (s ++ ':' :: ':' :: e) acc = [acc.reverse ++ s, e] := by
  induction s with
  | nil =>
    intro f acc e hf hs he
    cases f with
    | zero => simp at hf
    | succ f =>
      have hpre : ([':', ':'] : List Char).isPrefixOf (':' :: ':' :: e) = true := by
        simp [List.isPrefixOf]
      simp only [List.nil_append, jsSplitAux, hpre, if_true]
      rw [show (':' :: e).drop ([':'] : List Char).length = e from rfl]
      rw [jsSplitAux_noSep e f [] (by simp at hf; omega) he]
      simp
  | cons c s ih =>
    intro f acc e hf hs he
    cases f with
    | zero => simp at hf
    | succ f =>
      have hcc : c ≠ ':' := hs c (List.mem_cons_self _ _)
      have hpre : ([':', ':'] : List Char).isPrefixOf
          (c :: (s ++ ':' :: ':' :: e)) = false := by
        simp [List.isPrefixOf]
        intro h
        exact absurd h.symm hcc
      simp only [List.cons_append, jsSplitAux, List.append_eq, hpre,
        Bool.false_eq_true, if_false]
      rw [ih f (c :: acc) e (by simp at hf ⊢; omega)
        (fun d hd => hs d (List.mem_cons_of_mem _ hd)) he]
      simp

theorem jsSplit_eq_aux (x : String) :
    jsSplit "::" x = (jsSplitAux ':' [':'] x.data.length x.data []).map String.mk := rfl

theorem jsSplit_double (s e : String)
    (hs : ∀ c ∈ s.data, c ≠ ':') (he : ∀ c ∈ e.data, c ≠ ':') :
    jsSplit "::" (s ++ "::" ++ e) = [s, e] := by
  have hdata : (s ++ "::" ++ e).data = s.data ++ ':' :: ':' :: e.data := by
    simp [String.data_append]
  rw [jsSplit_eq_aux, hdata]
  rw [jsSplitAux_two s.data _ [] e.data (by simp; omega) hs he]
  simp

theorem validateService_ne_empty (s : String) (h : validateService s = true) :
    s ≠ "" := by
  intro hempty
  subst hempty
  exact absurd h (by decide)

theorem validateEnv_ne_empty (e : String) (h : validateEnv e = true) :
    e ≠ "" := by
  intro hempty
  subst hempty
  exact absurd h (by decide)

theorem validateService_no_colon (s : String) (h : validateService s = true) :
    ∀ c ∈ s.data, c ≠ ':' := by
  intro c hc
  rw [validateService, Bool.or_eq_true] at h
  rcases h with h | h
  · have : s = "_" := by simpa using h
    subst this
    rcases List.mem_singleton.mp hc with rfl
    decide
  · rw [servicePatternMatch, Bool.and_eq_true, List.all_eq_true] at h
    intro hceq
    subst hceq
    exact absurd (h.2 ':' hc) (by decide)

theorem validateEnv_no_colon (e : String) (h : validateEnv e = true) :
    ∀ c ∈ e.data, c ≠ ':' := by
  intro c hc
  rw [validateEnv, envPatternMatch, Bool.and_eq_true, List.all_eq_true] at h
  intro hceq
  subst hceq
  exact absurd (h.2 ':' hc) (by decide)

theorem parseServiceName_round (s e : String)
    (hs : validateService s = true) (he : validateEnv e = true) :
    parseServiceName (s ++ "::" ++ e) = (s, some e) := by
  have hsplit := jsSplit_double s e (validateService_no_colon s hs)
    (validateEnv_no_colon e he)
  simp only [parseServiceName, hsplit]
  simp [validateService_ne_empty s hs, validateEnv_ne_empty e he]

theorem buildServiceName_valid (s e : String)
    (hs : validateService s = true) (he : validateEnv e = true) :
    buildServiceName (some s) (some e) = .ok (s ++ "::" ++ e) := by
  have hse : ¬(s = "") := validateService_ne_empty s hs
  have hee : ¬(e = "") := validateEnv_ne_empty e he
  simp [buildServiceName, strTruthy, hse, hee, hs, he]

/-! ## Rendering lemmas -/

theorem enumFrom_flatMap_blank {α : Type} (f : α → List String) (l : List α) :
    ∀ n : Nat,
      (List.enumFrom (n + 1) l).flatMap
          (fun p => (if p.1 > 0 then [""] else []) ++ f p.2) =
        l.flatMap (fun a => "" :: f a) := by
  induction l with
  | nil => intro n; simp
  | cons x xs ih =>
    intro n
    simp only [List.enumFrom, List.flatMap_cons]
    rw [ih (n + 1)]
    simp

theorem enum_flatMap_blank {α : Type} (f : α → List String) (l : List α) :
    l.enum.flatMap (fun p => (if p.1 > 0 then [""] else []) ++ f p.2) =
      match l with
      | [] => []
      | x :: xs => f x ++ xs.flatMap (fun a => "" :: f a) := by
  cases l with
  | nil => simp
  | cons x xs =>
    simp only [List.enum_cons, List.flatMap_cons]
    rw [enumFrom_flatMap_blank f xs 0]
    simp

theorem printMergedView_eq_amended (groups : Groups) (service : String)
    (env : Option String) :
    printMergedView groups service env = mergedViewAmendedSpec groups service env := by
  simp only [printMergedView, mergedViewAmendedSpec]
  rw [enum_flatMap_blank
    (fun layer =>
      let keys := getGroup groups layer
      if keys.length == 0 && !(layer == "_") then []
      else
        [layer] ++
          (if keys.length == 0 then []
           else printTreeWithOverrides keys layer
             (overriddenMarks groups (mergedLayers service env))))
    (mergedLayers service env)]
  simp only [layerBlockAmended]
  rfl

/-! ## Enumeration parser lemmas -/

theorem strMk_ne_empty (l : List Char) (h : l ≠ []) : String.mk l ≠ "" := by
  intro heq
  exact h (congrArg String.data heq)

theorem macFlush_complete (st : MacState)
    (h : ∀ e ∈ st.entries, e.service ≠ "" ∧ e.key ≠ "") :
    ∀ e ∈ macFlush st, e.service ≠ "" ∧ e.key ≠ "" := by
  intro e he
  rw [macFlush] at he
  by_cases hc : (st.cls == "\"genp\"" && !(st.svc == "") && !(st.acct == "")) = true
  · rw [if_pos hc] at he
    rcases List.mem_append.mp he with h1 | h1
    · exact h e h1
    · rcases List.mem_singleton.mp h1 with rfl
      simp only [Bool.and_eq_true, Bool.not_eq_true', beq_iff_eq, beq_eq_false_iff_ne] at hc
      exact ⟨hc.1.2, hc.2⟩
  · rw [if_neg hc] at he
    exact h e he

theorem macStep_entries (st : MacState) (line : String) :
    (macStep st line).entries = st.entries ∨ (macStep st line).entries = macFlush st := by
  simp only [macStep]
  by_cases hA : startsWithStr "class:" (jsTrim line) = true
  · simp [hA]
  · by_cases hB : startsWithStr "\"svce\"" (jsTrim line) = true
    · simp only [hA, hB, Bool.false_eq_true, if_false, if_true]
      cases blobScan ("\"svce\"<blob>=\"".data) (jsTrim line).data <;> simp
    · by_cases hC : startsWithStr "\"acct\"" (jsTrim line) = true
      · simp only [hA, hB, hC, Bool.false_eq_true, if_false, if_true]
        cases blobScan ("\"acct\"<blob>=\"".data) (jsTrim line).data <;> simp
      · simp [hA, hB, hC]

theorem macScan_complete (lines : List String) :
    ∀ st : MacState, (∀ e ∈ st.entries, e.service ≠ "" ∧ e.key ≠ "") →
      ∀ e ∈ (lines.foldl macStep st).entries, e.service ≠ "" ∧ e.key ≠ "" := by
  induction lines with
  | nil => intro st h; exact h
  | cons line lines ih =>
    intro st h
    simp only [List.foldl_cons]
    apply ih
    rcases macStep_entries st line with heq | heq
    · rw [heq]; exact h
    · rw [heq]; exact macFlush_complete st h

theorem parseMacOSLines_complete (lines : List String) :
    ∀ e ∈ parseMacOSLines lines, e.service ≠ "" ∧ e.key ≠ "" := by
  rw [parseMacOSLines, macScanState]
  exact macFlush_complete _ (macScan_complete lines ⟨[], "", "", ""⟩ (by simp))

theorem linuxFlush_complete (st : LinuxState)
    (h : ∀ e ∈ st.entries, e.service ≠ "" ∧ e.key ≠ "") :
    ∀ e ∈ linuxFlush st, e.service ≠ "" ∧ e.key ≠ "" := by
  intro e he
  rw [linuxFlush] at he
  by_cases hc : (!(st.svc == "") && !(st.acct == "")) = true
  · rw [if_pos hc] at he
    rcases List.mem_append.mp he with h1 | h1
    · exact h e h1
    · rcases List.mem_singleton.mp h1 with rfl
      simp only [Bool.and_eq_true, Bool.not_eq_true', beq_eq_false_iff_ne] at hc
      exact hc
  · rw [if_neg hc] at he
    exact h e he

theorem linuxStep_entries (st : LinuxState) (line : String) :
    (linuxStep st line).entries = st.entries ∨
      (linuxStep st line).entries = linuxFlush st := by
  simp only [linuxStep]
  by_cases hA : startsWithStr "[" (jsTrim line) = true
  · simp [hA]
  · by_cases hB : startsWithStr "attribute.service = " (jsTrim line) = true
    · simp [hA, hB]
    · by_cases hC : startsWithStr "attribute.account = " (jsTrim line) = true
      · simp [hA, hB, hC]
      · simp [hA, hB, hC]

theorem linuxScan_complete (lines : List String) :
    ∀ st : LinuxState, (∀ e ∈ st.entries, e.service ≠ "" ∧ e.key ≠ "") →
      ∀ e ∈ (lines.foldl linuxStep st).entries, e.service ≠ "" ∧ e.key ≠ "" := by
  induction lines with
  | nil => intro st h; exact h
  | cons line lines ih =>
    intro st h
    simp only [List.foldl_cons]
    apply ih
    rcases linuxStep_entries st line with heq | heq
    · rw [heq]; exact h
    · rw [heq]; exact linuxFlush_complete st h

theorem parseLinuxLines_complete (lines : List String) :
    ∀ e ∈ parseLinuxLines lines, e.service ≠ "" ∧ e.key ≠ "" := by
  rw [parseLinuxLines, linuxScanState]
  exact linuxFlush_complete _ (linuxScan_complete lines ⟨[], "", ""⟩ (by simp))

theorem winTry_complete (tail : List Char) (r : String × String)
    (h : winTry tail = some r) : r.1 ≠ "" ∧ r.2 ≠ "" := by
  simp only [winTry] at h
  by_cases hc1 : (tail.takeWhile fun d => !(d == '/')) = []
  · rw [hc1] at h
    simp at h
  · rw [if_pos (by simpa using hc1)] at h
    split at h
    · rename_i rest heq
      by_cases hrest : rest = []
      · rw [if_neg (by simpa using hrest)] at h
        exact Option.noConfusion h
      · rw [if_pos (by simpa using hrest)] at h
        rcases Option.some.injEq _ _ ▸ h with rfl
        simp only []
        exact ⟨strMk_ne_empty _ hc1, strMk_ne_empty _ hrest⟩
    · exact Option.noConfusion h

theorem winAfterWs_complete (tail : List Char) (r : String × String)
    (h : winAfterWs tail = some r) : r.1 ≠ "" ∧ r.2 ≠ "" := by
  simp only [winAfterWs] at h
  by_cases hci : ciStarts ("legacygeneric:target=".data) tail = true
  · rw [if_pos hci] at h
    cases h2 : winTry (tail.drop ("legacygeneric:target=".data.length)) with
    | some r2 =>
      rw [h2] at h
      rcases Option.some.injEq _ _ ▸ h with rfl
      exact winTry_complete _ _ h2
    | none =>
      rw [h2] at h
      exact winTry_complete _ _ h
  · rw [if_neg hci] at h
    exact winTry_complete _ _ h

theorem winWsTrials_complete (k : Nat) :
    ∀ (tail : List Char) (r : String × String),
      winWsTrials k tail = some r → r.1 ≠ "" ∧ r.2 ≠ "" := by
  induction k with
  | zero => intro tail r h; exact winAfterWs_complete _ _ h
  | succ k ih =>
    intro tail r h
    simp only [winWsTrials] at h
    cases h2 : winAfterWs (tail.drop (k + 1)) with
    | some r2 =>
      rw [h2] at h
      rcases Option.some.injEq _ _ ▸ h with rfl
      exact winAfterWs_complete _ _ h2
    | none =>
      rw [h2] at h
      exact ih tail r h

theorem winMatchAt_complete (cs : List Char) (r : String × String)
    (h : winMatchAt cs = some r) : r.1 ≠ "" ∧ r.2 ≠ "" := by
  simp only [winMatchAt] at h
  by_cases hci : ciStarts ("target:".data) cs = true
  · rw [if_pos hci] at h
    exact winWsTrials_complete _ _ _ h
  · rw [if_neg hci] at h
    exact Option.noConfusion h

theorem winScan_complete (cs : List Char) :
    ∀ r : String × String, winScan cs = some r → r.1 ≠ "" ∧ r.2 ≠ "" := by
  induction cs with
  | nil => intro r h; exact Option.noConfusion h
  | cons c cs ih =>
    intro r h
    simp only [winScan] at h
    cases h2 : winMatchAt (c :: cs) with
    | some r2 =>
      rw [h2] at h
      rcases Option.some.injEq _ _ ▸ h with rfl
      exact winMatchAt_complete _ _ h2
    | none =>
      rw [h2] at h
      exact ih r h

theorem winLineEntry_complete (line : String) (e : SecretEntry)
    (h : winLineEntry line = some e) : e.service ≠ "" ∧ e.key ≠ "" := by
  simp only [winLineEntry] at h
  by_cases hs : startsWithStr "Target:" (jsTrim line) = true
  · rw [if_pos hs] at h
    cases h2 : winScan (jsTrim line).data with
    | some r =>
      rw [h2] at h
      rcases Option.some.injEq _ _ ▸ h with rfl
      exact winScan_complete _ _ h2
    | none =>
      rw [h2] at h
      exact Option.noConfusion h
  · rw [if_neg hs] at h
    exact Option.noConfusion h

theorem parseWindowsLines_complete (lines : List String) :
    ∀ e ∈ parseWindowsLines lines, e.service ≠ "" ∧ e.key ≠ "" := by
  rw [parseWindowsLines]
  have main : ∀ acc : List SecretEntry,
      (∀ e ∈ acc, e.service ≠ "" ∧ e.key ≠ "") →
      ∀ e ∈ lines.foldl
        (fun entries line =>
          match winLineEntry line with
          | some e => entries ++ [e]
          | none => entries)
        acc, e.service ≠ "" ∧ e.key ≠ "" := by
    induction lines with
    | nil => intro acc h; exact h
    | cons line lines ih =>
      intro acc h
      simp only [List.foldl_cons]
      apply ih
      cases h2 : winLineEntry line with
      | some e2 =>
        intro e he
        rcases List.mem_append.mp he with h3 | h3
        · exact h e h3
        · rcases List.mem_singleton.mp h3 with rfl
          exact winLineEntry_complete line e h2
      | none => exact h
  exact main [] (by simp)

/-! ## Claim theorems -/

/-- C1: Flat merge for injection.  For every grouped-by-namespace map,
external store, and (service?, environment?) request, each key's merged
value in `getMergedSecrets` is the value fetched from the last resolved
layer whose group lists the key and whose fetch is present — later layers
overwrite earlier ones, and a layer absent from the group map contributes
nothing and causes no error.  With layers `_`, `app`, `app::dev` defining
`X = 1, 2, 3`, the merge yields `X = 3`. -/
theorem flat_merge_for_injection :
    (∀ (store : String → String → Option String) (groups : Groups)
        (service env : Option String) (k : String),
      mapLookup (getMergedSecrets store groups service env) k =
        flatMergeSpec store groups (resolveLayers service env) k) ∧
    mapLookup (getMergedSecrets exampleStore exampleGroups
        (some "app") (some "dev")) "X" = some "3" :=
  ⟨getMergedSecrets_lookup, by decide⟩

/-- C2: Annotated merge for display.  For every grouped map whose keys
satisfy the key grammar, every occurrence of a key in a resolved layer is
marked shadowed exactly when that layer is not the last layer of the
resolution that defines the key; a key defined in exactly one layer is
visible there, and only the layers of the active resolution matter. -/
theorem annotated_merge_shadowing :
    ∀ (groups : Groups) (service : String) (env : Option String),
      (∀ p ∈ groups, ∀ k2 ∈ p.2, keyPatternMatch k2 = true) →
      ∀ L ∈ mergedLayers service env, ∀ k ∈ getGroup groups L,
        ((overriddenMarks groups (mergedLayers service env)).contains
            (L ++ ":" ++ k) = true ↔
          ¬(lastDefiningLayer groups (mergedLayers service env) k = some L)) := by
  intro groups service env hkeys L hL k hk
  have hkc : ∀ c ∈ k.data, c ≠ ':' := by
    rcases getGroup_subset groups L k hk with ⟨p, hp, hkp⟩
    exact keyPattern_no_colon k (hkeys p hp k hkp)
  constructor
  · intro hcontains
    have hmem : (L ++ ":" ++ k) ∈ overriddenMarks groups (mergedLayers service env) := by
      simpa using hcontains
    rcases (overriddenMarks_mem groups (mergedLayers service env) _).mp hmem with
      ⟨L2, k2, hL2, hk2, hcond, hs⟩
    have hk2c : ∀ c ∈ k2.data, c ≠ ':' := by
      rcases getGroup_subset groups L2 k2 hk2 with ⟨p, hp, hkp⟩
      exact keyPattern_no_colon k2 (hkeys p hp k2 hkp)
    rcases markEncode_inj L k L2 k2 hkc hk2c hs with ⟨hLeq, hkeq⟩
    rw [hLeq, hkeq]
    exact hcond
  · intro hne
    have hmem : (L ++ ":" ++ k) ∈ overriddenMarks groups (mergedLayers service env) :=
      (overriddenMarks_mem groups (mergedLayers service env) _).mpr
        ⟨L, k, mem_dropLast_of_shadowed groups _ L k hL hk hne, hk, hne, rfl⟩
    simpa using hmem

/-- C2 witness: in the concrete three-layer example, the `_` occurrence
of `X` is marked shadowed exactly because `_` is not the last defining
layer. -/
theorem annotated_merge_shadowing_witness :
    ((overriddenMarks exampleGroups (mergedLayers "app" (some "dev"))).contains
        ("_" ++ ":" ++ "X") = true ↔
      ¬(lastDefiningLayer exampleGroups (mergedLayers "app" (some "dev")) "X"
          = some "_")) :=
  annotated_merge_shadowing exampleGroups "app" (some "dev") (by decide)
    "_" (by decide) "X" (by decide)

/-- C3: Namespace codec round-trip.  For every service accepted by
`validateService` and environment accepted by `validateEnv`, building the
namespace and parsing it back returns exactly the original pair; any
identifier containing a colon (in particular one containing `::`) is
rejected by validation beforehand. -/
theorem namespace_codec_roundtrip :
    (∀ s e : String, validateService s = true → validateEnv e = true →
      buildServiceName (some s) (some e) = .ok (s ++ "::" ++ e) ∧
      parseServiceName (s ++ "::" ++ e) = (s, some e)) ∧
    (∀ s : String, ':' ∈ s.data → validateService s = false) ∧
    (∀ e : String, ':' ∈ e.data → validateEnv e = false) := by
  refine ⟨?_, ?_, ?_⟩
  · intro s e hs he
    exact ⟨buildServiceName_valid s e hs he, parseServiceName_round s e hs he⟩
  · intro s hc
    cases h : validateService s with
    | false => rfl
    | true => exact absurd rfl (validateService_no_colon s h ':' hc)
  · intro e hc
    cases h : validateEnv e with
    | false => rfl
    | true => exact absurd rfl (validateEnv_no_colon e h ':' hc)

/-- C3 witness: round-trip at the concrete pair (`my-app`, `dev`). -/
theorem namespace_codec_roundtrip_witness :
    buildServiceName (some "my-app") (some "dev") = .ok ("my-app" ++ "::" ++ "dev") ∧
    parseServiceName ("my-app" ++ "::" ++ "dev") = ("my-app", some "dev") :=
  namespace_codec_roundtrip.1 "my-app" "dev" (by decide) (by decide)

/-- C4 (code behavior at the failing input): contrary to the documented
sentinel-environment invariant, the codec builds `_::dev` from the
sentinel service `_` with environment `dev`, and the entry filter retains
an entry whose namespace is `_::dev`. -/
theorem sentinel_env_code_behavior :
    buildServiceName (some "_") (some "dev") = .ok "_::dev" ∧
    filterShhEnvEntries [⟨"_::dev", "KEY"⟩] = [⟨"_::dev", "KEY"⟩] :=
  ⟨rfl, by decide⟩

/-- C5: Conservative namespace parsing.  A namespace decomposes into
(service, environment) exactly when splitting on `::` yields two
non-empty parts; every other split arity returns the whole original
string as the service, and in particular `a::b::c` is not decomposed. -/
theorem parse_namespace_conservative :
    (∀ ns p0 p1 : String, jsSplit "::" ns = [p0, p1] → ¬p0 = "" → ¬p1 = "" →
      parseServiceName ns = (p0, some p1)) ∧
    (∀ ns : String,
      (∀ p0 p1 : String, jsSplit "::" ns = [p0, p1] → p0 = "" ∨ p1 = "") →
      parseServiceName ns = (ns, none)) ∧
    parseServiceName "a::b::c" = ("a::b::c", none) := by
  refine ⟨?_, ?_, by decide⟩
  · intro ns p0 p1 hsplit h0 h1
    simp [parseServiceName, hsplit, h0, h1]
  · intro ns h
    simp only [parseServiceName]
    cases hsplit : jsSplit "::" ns with
    | nil => rfl
    | cons a t =>
      cases t with
      | nil => rfl
      | cons b t2 =>
        cases t2 with
        | nil =>
          rcases h a b hsplit with h2 | h2 <;> simp [h2]
        | cons c t3 => rfl

/-- C5 witness: a two-part namespace decomposes. -/
theorem parse_namespace_conservative_witness :
    parseServiceName "x::y" = ("x", some "y") :=
  parse_namespace_conservative.1 "x::y" "x" "y" (by decide) (by decide) (by decide)

/-- C6: End-of-stream flush on every platform.  On macOS and Linux, when
the scan ends with a complete pending candidate (class `"genp"` on macOS,
both fields observed) the parser emits it as the final entry even without
a following record boundary; on Windows every record is a single
`Target:` line and a final matching line likewise yields its entry. -/
theorem flush_at_end_of_stream :
    (∀ lines : List String,
      (macScanState lines).cls = "\"genp\"" →
      ¬(macScanState lines).svc = "" →
      ¬(macScanState lines).acct = "" →
      parseMacOSLines lines =
        (macScanState lines).entries ++
          [⟨(macScanState lines).svc, (macScanState lines).acct⟩]) ∧
    (∀ lines : List String,
      ¬(linuxScanState lines).svc = "" →
      ¬(linuxScanState lines).acct = "" →
      parseLinuxLines lines =
        (linuxScanState lines).entries ++
          [⟨(linuxScanState lines).svc, (linuxScanState lines).acct⟩]) ∧
    (∀ (lines : List String) (line : String) (e : SecretEntry),
      winLineEntry line = some e →
      parseWindowsLines (lines ++ [line]) = parseWindowsLines lines ++ [e]) := by
  refine ⟨?_, ?_, ?_⟩
  · intro lines h1 h2 h3
    rw [parseMacOSLines, macFlush, if_pos (by simp [h1, h2, h3])]
  · intro lines h1 h2
    rw [parseLinuxLines, linuxFlush, if_pos (by simp [h1, h2])]
  · intro lines line e h
    rw [parseWindowsLines, parseWindowsLines, List.foldl_append]
    simp [h]

/-- C6 witness: a final complete record with no trailing boundary is
emitted, on each of the three platforms. -/
theorem flush_at_end_of_stream_witness :
    parseMacOSLines
        ["class: \"genp\"", "    \"svce\"<blob>=\"app\"", "    \"acct\"<blob>=\"API_KEY\""] =
      [⟨"app", "API_KEY"⟩] ∧
    parseLinuxLines
        ["[/collection/login/1]", "attribute.service = app", "attribute.account = API_KEY"] =
      [⟨"app", "API_KEY"⟩] ∧
    parseWindowsLines
        ["Target: LegacyGeneric:target=app/OTHER", "Target: app/API_KEY"] =
      [⟨"app", "OTHER"⟩, ⟨"app", "API_KEY"⟩] := by
  refine ⟨?_, ?_, ?_⟩
  · exact (flush_at_end_of_stream.1 _ (by decide) (by decide) (by decide)).trans (by decide)
  · exact (flush_at_end_of_stream.2.1 _ (by decide) (by decide)).trans (by decide)
  · exact (flush_at_end_of_stream.2.2 ["Target: LegacyGeneric:target=app/OTHER"]
      "Target: app/API_KEY" ⟨"app", "API_KEY"⟩ (by decide)).trans (by decide)

/-- C7: Best-effort enumeration.  On each platform, a failing or
unavailable native command yields an empty sequence, empty output yields
an empty sequence, every emitted entry comes from a record with both
fields observed (so a partial record contributes nothing), and a
malformed or partial record is skipped while later records still
parse. -/
theorem enumeration_best_effort :
    enumerateMacOS (.error ()) = [] ∧ enumerateLinux (.error ()) = [] ∧
    enumerateWindows (.error ()) = [] ∧
    enumerateMacOS (.ok "") = [] ∧ enumerateLinux (.ok "") = [] ∧
    enumerateWindows (.ok "") = [] ∧
    (∀ lines : List String, ∀ e ∈ parseMacOSLines lines,
      e.service ≠ "" ∧ e.key ≠ "") ∧
    (∀ lines : List String, ∀ e ∈ parseLinuxLines lines,
      e.service ≠ "" ∧ e.key ≠ "") ∧
    (∀ lines : List String, ∀ e ∈ parseWindowsLines lines,
      e.service ≠ "" ∧ e.key ≠ "") ∧
    parseMacOSLines ["class: \"genp\"", "\"svce\"<blob>=\"app\"",
      "class: \"genp\"", "\"svce\"<blob>=\"web\"", "\"acct\"<blob>=\"KEY\""] =
      [⟨"web", "KEY"⟩] ∧
    parseLinuxLines ["[/item/1]", "attribute.service = app",
      "[/item/2]", "attribute.service = web", "attribute.account = KEY"] =
      [⟨"web", "KEY"⟩] ∧
    parseWindowsLines ["Target: novalue", "Target: LegacyGeneric:target=app/KEY"] =
      [⟨"app", "KEY"⟩] :=
  ⟨rfl, rfl, rfl, by decide, by decide, by decide, parseMacOSLines_complete,
    parseLinuxLines_complete, parseWindowsLines_complete, by decide, by decide, by decide⟩

/-- C7 witness: the record completeness facts applied to a concrete
parsed entry. -/
theorem enumeration_best_effort_witness :
    ("web" : String) ≠ "" ∧ ("KEY" : String) ≠ "" :=
  enumeration_best_effort.2.2.2.2.2.2.1
    ["class: \"genp\"", "\"svce\"<blob>=\"app\"",
      "class: \"genp\"", "\"svce\"<blob>=\"web\"", "\"acct\"<blob>=\"KEY\""]
    ⟨"web", "KEY"⟩ (by decide)

/-- C8 counterexample: with `_` holding `A`, `app::dev` holding `B` and
the `app` layer entirely absent, the merged view prints two consecutive
blank lines between the two printed namespaces — the omitted layer still
contributes its separating blank line, so consecutive printed namespaces
are not always separated by exactly one blank line. -/
theorem merged_view_blank_line_cex :
    printMergedView [("_", ["A"]), ("app::dev", ["B"])] "app" (some "dev") =
      ["_", "└── A", "", "", "app::dev", "└── B"] ∧
    printMergedView [("_", ["A"]), ("app::dev", ["B"])] "app" (some "dev") ≠
      ["_", "└── A", "", "app::dev", "└── B"] := by
  exact ⟨by decide, by decide⟩

/-- C8 amended: the renderer equals the amended per-layer description —
the first layer's block, then one blank line before every later layer
whether or not that layer's block is printed; a printed block is the
header plus branch lines, the root `_` with zero keys still prints its
bare header, and an absent non-root layer prints no header and no branch
lines (but its blank line remains).  Concretely, with an empty group map
the output is the bare root header followed by one blank line for the
omitted `app` layer. -/
theorem merged_view_blank_lines :
    (∀ (groups : Groups) (service : String) (env : Option String),
      printMergedView groups service env = mergedViewAmendedSpec groups service env) ∧
    printMergedView [] "app" none = ["_", ""] :=
  ⟨printMergedView_eq_amended, by decide⟩

/-- C9: Absent store values never erase lower layers.
`getSecretsForService` returns exactly the requested keys whose store
fetch is present (an empty key list yields the empty record), and in the
merge a higher-precedence layer listing a key whose fetch is absent
leaves the lower layer's value in place. -/
theorem absent_values_never_erase :
    (∀ (store : String → String → Option String) (svc : String)
        (keys : List String) (k : String),
      mapLookup (getSecretsForService store svc keys) k =
        if k ∈ keys then store svc k else none) ∧
    (∀ (store : String → String → Option String) (svc : String),
      getSecretsForService store svc [] = []) ∧
    mapLookup (getMergedSecrets absentStore absentGroups (some "app") none) "X" =
      some "1" :=
  ⟨getSecretsForService_lookup, fun _ _ => rfl, by decide⟩

/-- C10: Empty-string service at the codec boundary.  An empty-string
service with no environment falls back to the sentinel `_` (no
validation error), and an empty-string service with an environment fails
with the environment-requires-service error, not an invalid-service
error. -/
theorem empty_service_codec :
    buildServiceName (some "") none = .ok "_" ∧
    (∀ e : String, ¬e = "" →
      buildServiceName (some "") (some e) = .error .envRequiresService) := by
  constructor
  · rfl
  · intro e he
    simp [buildServiceName, strTruthy, he]

/-- C10 witness: the environment-requires-service error at `dev`. -/
theorem empty_service_codec_witness :
    buildServiceName (some "") (some "dev") = .error .envRequiresService :=
  empty_service_codec.2 "dev" (by decide)

end ShhEnv
